import Mathlib

namespace PACam

/-- Arithmetic mean of a list of rationals; 0 for the empty list, since
rational division by zero yields zero. -/
def mean (l : List ℚ) : ℚ := l.sum / (l.length : ℚ)

/-- Population variance of a list of rationals: mean of squared deviations
from the mean; 0 for the empty list. -/
def popVar (l : List ℚ) : ℚ :=
  ((l.map (fun x => (x - mean l) ^ 2)).sum) / (l.length : ℚ)

/-- Population standard deviation: square root of the population variance. -/
noncomputable def popStd (l : List ℚ) : ℝ := Real.sqrt (popVar l)

/-- Insert an element into a list, placing it before the first element whose
key is not strictly smaller. Together with sortKey this realizes the stable
ascending sort by key that the source relies on. -/
def insertKey {α β : Type} [LinearOrder β] (key : α → β) (a : α) : List α → List α
  | [] => [a]
  | b :: bs => if key b < key a then b :: insertKey key a bs else a :: b :: bs

/-- Stable sort ascending by key: elements with equal keys keep their original
relative order, which is the guarantee of the sort used in the source. -/
def sortKey {α β : Type} [LinearOrder β] (key : α → β) : List α → List α
  | [] => []
  | x :: xs => insertKey key x (sortKey key xs)

/-- A pixel with blue, green, red and alpha channel values. -/
structure Px where
  b : ℕ
  g : ℕ
  r : ℕ
  a : ℕ

/-- A raster image: height, width, channel count and a pixel grid with the
row index first. -/
structure Image where
  h : ℕ
  w : ℕ
  channels : ℕ
  pix : ℕ → ℕ → Px

/-- A contour point. -/
abbrev Pt := ℤ × ℤ

/-- A contour: a list of integer points, as produced by the contour finder. -/
abbrev Cnt := List Pt

/-- Geometric primitives supplied by the imaging library, abstracted as
functions: contour area, raw moments m00 and m01, rasterization of a group of
contours into a filled mask, morphological mask cleanup, and external contour
extraction from a mask of the given height and width. -/
structure CV where
  area : Cnt → ℚ
  m00 : Cnt → ℚ
  m01 : Cnt → ℚ
  draw : List Cnt → ℕ → ℕ → Bool
  clean : (ℕ → ℕ → Bool) → (ℕ → ℕ → Bool)
  findContours : (ℕ → ℕ → Bool) → ℕ → ℕ → List Cnt

/-- Foreground mask of the 50-pixel-cropped analyzer input: a cropped pixel is
foreground exactly when its alpha channel is positive, mirroring
line_analyzer._process_image after the border crop. -/
def laMask (img : Image) : ℕ → ℕ → Bool :=
  fun y x => decide (0 < (img.pix (y + 50) (x + 50)).a)

/-- Contours surviving the minimum-area filter of line_analyzer._find_contours:
a contour is kept when its area is at least min_blob_area. -/
def laFilterContours (area : Cnt → ℚ) (minBlobArea : ℚ) (cs : List Cnt) : List Cnt :=
  cs.filter (fun c => decide (minBlobArea ≤ area c))

/-- Contours of the cleaned cropped mask that survive the area filter. -/
def laContours (cv : CV) (img : Image) (minBlobArea : ℚ) : List Cnt :=
  laFilterContours cv.area minBlobArea
    (cv.findContours (cv.clean (laMask img)) (img.h - 100) (img.w - 100))

/-- Vertical centroid of a contour from its raw moments, falling back to the
first point's vertical coordinate when the area moment m00 is zero. -/
def centroidY (cv : CV) (c : Cnt) : ℚ :=
  if cv.m00 c = 0 then ((c.headD (0, 0)).2 : ℚ) else cv.m01 c / cv.m00 c

/-- One step of the grouping loop of line_analyzer._group_contours_into_lines:
a new line starts when the current group is nonempty and the centroid gap to
its last member exceeds the threshold; otherwise the contour joins the
current group. -/
def groupStep (thr : ℚ) (st : List (List Cnt) × List (Cnt × ℚ)) (p : Cnt × ℚ) :
    List (List Cnt) × List (Cnt × ℚ) :=
  if st.2 ≠ [] ∧ thr < |p.2 - (st.2.getLastD ([], 0)).2| then
    (st.1 ++ [st.2.map Prod.fst], [p])
  else
    (st.1, st.2 ++ [p])

/-- Grouping of contours into lines: sort by vertical centroid (stable), split
where the centroid gap exceeds 2 percent of the cropped height, close the last
group, and reverse the group list. An empty contour list yields an empty line
list, which is the early return in the source. -/
def groupContours (cv : CV) (hcrop : ℕ) (cs : List Cnt) : List (List Cnt) :=
  if cs = [] then []
  else
    let sorted := sortKey (fun p => p.2) (cs.map (fun c => (c, centroidY cv c)))
    let thr : ℚ := (hcrop : ℚ) * 2 / 100
    let st := sorted.foldl (groupStep thr) ([], [])
    (if st.2 ≠ [] then st.1 ++ [st.2.map Prod.fst] else st.1).reverse

/-- Thickness profile of one rasterized line mask: for every column of the
cropped image, the extent from the first to the last foreground row of that
column, or 0 when the column has no foreground. -/
def thicknessOf (mask : ℕ → ℕ → Bool) (hcrop wcrop : ℕ) : List ℚ :=
  (List.range wcrop).map (fun x =>
    let rows := (List.range hcrop).filter (fun y => mask y x)
    if rows = [] then 0 else ((rows.getLastD 0 : ℚ) - (rows.headD 0 : ℚ) + 1))

/-- Lines paired with their thickness profiles, computed from the cropped
analyzer input. -/
def analyzerThickness (cv : CV) (img : Image) (minBlobArea : ℚ) :
    List (List Cnt × List ℚ) :=
  (groupContours cv (img.h - 100) (laContours cv img minBlobArea)).map
    (fun grp => (grp, thicknessOf (cv.draw grp) (img.h - 100) (img.w - 100)))

/-- Thickness values of every line at one column. -/
def columnVals (lines : List (List ℚ)) (x : ℕ) : List ℚ :=
  lines.map (fun t => t.getD x 0)

/-- Population variance of the thickness values at one column. The scan in the
source compares population standard deviations; the square root is strictly
monotone on nonnegative reals, so comparing variances selects the same peak
column and makes the scan decidable. -/
def columnVar (lines : List (List ℚ)) (x : ℕ) : ℚ := popVar (columnVals lines x)

/-- The peak scan of line_analyzer._determine_problematic_regions: walk the
columns in order, remembering the first column whose statistic strictly
exceeds the running maximum, which starts at 0. -/
def scanPeak (f : ℕ → ℚ) : List ℕ → ℚ → Option ℕ → Option ℕ
  | [], _, pk => pk
  | x :: xs, m, pk =>
    if m < f x then scanPeak f xs (f x) (some x) else scanPeak f xs m pk

/-- Region produced for one image half: none when there are no lines or when
no column statistic strictly beats the initial maximum 0, otherwise the peak
column expanded by the radius and clipped to the half bounds. -/
def halfRegion (lines : List (List ℚ)) (lo hi rs : ℕ) : Option (ℕ × ℕ) :=
  if lines = [] then none
  else
    match scanPeak (columnVar lines) (List.range' lo (hi - lo)) 0 none with
    | none => none
    | some p => some (max lo (p - rs), min hi (p + rs))

/-- Problematic regions: one optional region per image half, at most two in
total, with radius one tenth of the full width. -/
def problematicRegions (w : ℕ) (lines : List (List ℚ)) : List (ℕ × ℕ) :=
  ((halfRegion lines 0 (w / 2) (w / 10)).toList ++
    (halfRegion lines (w / 2) w (w / 10)).toList).take 2

/-- Entries of a thickness profile that are strictly positive, as selected by
the source's thickness-greater-than-zero filter. -/
def nonzeros (t : List ℚ) : List ℚ := t.filter (fun x => decide (0 < x))

/-- Number of exactly-zero entries of a thickness profile. -/
def countZeros (t : List ℚ) : ℕ := t.countP (fun x => decide (x = 0))

/-- Slice of a list between two indices, first included and second excluded,
with out-of-range indices clamped like a Python slice. -/
def listSlice (t : List ℚ) (a b : ℕ) : List ℚ := (t.drop a).take (b - a)

/-- Global smoothness score S1 of line_analyzer._compute_smoothness_metrics:
standard deviation of the positive entries when there are at least two of
them, plus the zero count times the gap penalty. -/
noncomputable def s1 (g : ℚ) (t : List ℚ) : ℝ :=
  (if 1 < (nonzeros t).length then popStd (nonzeros t) else 0) +
    (countZeros t : ℝ) * (g : ℝ)

/-- Regional smoothness score S2 of line_analyzer._compute_smoothness_metrics:
for each stored region the source takes the slice from start through end
inclusive, adds the standard deviation of its positive entries when any entry
is positive, and adds the zero count of the slice times the gap penalty. -/
noncomputable def s2 (g : ℚ) (regions : List (ℕ × ℕ)) (t : List ℚ) : ℝ :=
  (regions.map (fun r =>
    let sec := listSlice t r.1 (r.2 + 1)
    (if sec.any (fun x => decide (0 < x)) then popStd (nonzeros sec) else 0) +
      (countZeros sec : ℝ) * (g : ℝ))).sum

/-- A line after scoring: its contours, thickness profile and both scores. -/
structure ScoredLine where
  contours : List Cnt
  thickness : List ℚ
  s1 : ℝ
  s2 : ℝ

/-- Attach both smoothness scores to every line. -/
noncomputable def scoreLines (g : ℚ) (regions : List (ℕ × ℕ))
    (tl : List (List Cnt × List ℚ)) : List ScoredLine :=
  tl.map (fun p => ⟨p.1, p.2, s1 g p.2, s2 g regions p.2⟩)

/-- The analyzer pipeline after the channel check: group, profile, determine
the problematic regions from all profiles, and score every line. -/
noncomputable def analyzerLines (cv : CV) (img : Image) (minBlobArea g : ℚ) :
    List ScoredLine :=
  scoreLines g
    (problematicRegions (img.w - 100)
      ((analyzerThickness cv img minBlobArea).map (fun p => p.2)))
    (analyzerThickness cv img minBlobArea)

/-- The full analyzer: none models the raised error when the input image does
not have exactly four channels. -/
noncomputable def runAnalyzer (cv : CV) (img : Image) (minBlobArea g : ℚ) :
    Option (List ScoredLine) :=
  if img.channels = 4 then some (analyzerLines cv img minBlobArea g) else none

/-- Sort key of get_smoothest_lines: the regional score of an indexed line. -/
noncomputable def s2Key (p : ℕ × ScoredLine) : ℝ := p.2.s2

/-- get_smoothest_lines: enumerate the lines, sort stably ascending by the
regional score, truncate, and emit one-based line number with both scores. -/
noncomputable def getSmoothestLines (lines : List ScoredLine) (top : ℕ) :
    List (ℕ × ℝ × ℝ) :=
  ((sortKey s2Key lines.enum).take top).map (fun p => (p.1 + 1, p.2.s1, p.2.s2))

/-- get_smoothest_lines with its default truncation count of 5. -/
noncomputable def getSmoothestLinesDefault (lines : List ScoredLine) :
    List (ℕ × ℝ × ℝ) :=
  getSmoothestLines lines 5

/-- Foreground test of RetrieveRect.process_image: a pixel is foreground when
any of its four channels is positive, which is the any-over-channels test of
the source. -/
def rrForeground (p : Px) : Bool :=
  decide (0 < p.b) || decide (0 < p.g) || decide (0 < p.r) || decide (0 < p.a)

/-- The binary mask built by RetrieveRect.process_image, defined only when the
input has four channels; none models the raised error otherwise. -/
def rrMask (img : Image) : Option (ℕ → ℕ → Bool) :=
  if img.channels = 4 then some (fun y x => rrForeground (img.pix y x)) else none

/-- Value of the RetrieveRect mask at one pixel. -/
def rrMaskAt (img : Image) (y x : ℕ) : Option Bool :=
  (rrMask img).map (fun m => m y x)

/-- Contours surviving the speckle filter of RetrieveRect._detect_corners: a
contour is kept when its area is strictly greater than 1000. -/
def rrFilterContours (area : Cnt → ℚ) (cs : List Cnt) : List Cnt :=
  cs.filter (fun c => decide (1000 < area c))

/-- Tolerance fractions tried by the corner approximation loop, in order. -/
def scaleList : List ℚ := [1/100, 2/100, 3/100, 5/100, 7/100, 1/10]

/-- The approximation loop of RetrieveRect._detect_corners: try tolerances in
order and stop at the first giving exactly 4 vertices; when none does, the
loop variable is left holding the last attempt. -/
def approxLoop (approx : ℚ → List Pt) : List ℚ → List Pt
  | [] => []
  | [s] => approx s
  | s :: ss => if (approx s).length = 4 then approx s else approxLoop approx ss

/-- Corner selection of RetrieveRect._detect_corners once the candidate
contour is fixed: the loop result when it has 4 vertices, otherwise the box
points of the minimum-area rectangle, both abstracted as inputs. -/
def detectCorners (approx : ℚ → List Pt) (box : List Pt) : List Pt :=
  let c := approxLoop approx scaleList
  if c.length = 4 then c else box

/-- Nonzero entries of a thickness profile, following the specification's
wording, which says nonzero rather than positive. -/
def nonzerosSpec (t : List ℚ) : List ℚ := t.filter (fun x => decide (x ≠ 0))

/-- S1 as the specification states it: standard deviation of the nonzero
entries, with the term 0 when fewer than two nonzero samples exist, plus the
gap penalty times the zero count. -/
noncomputable def s1spec (g : ℚ) (t : List ℚ) : ℝ :=
  (if (nonzerosSpec t).length < 2 then 0 else popStd (nonzerosSpec t)) +
    (g : ℝ) * (countZeros t : ℝ)

/-- S2 as claim C4 states it: each region is read as the half-open column
range from start to end excluded. -/
noncomputable def s2specOpen (g : ℚ) (regions : List (ℕ × ℕ)) (t : List ℚ) : ℝ :=
  (regions.map (fun r =>
    let sec := listSlice t r.1 r.2
    (if sec.any (fun x => decide (x ≠ 0)) then popStd (nonzerosSpec sec) else 0) +
      (g : ℝ) * (countZeros sec : ℝ))).sum

/-- S2 following the specification's per-region formula, but reading each
stored region as the closed column range from start through end inclusive,
which is what the source's slice does. -/
noncomputable def s2specClosed (g : ℚ) (regions : List (ℕ × ℕ)) (t : List ℚ) : ℝ :=
  (regions.map (fun r =>
    let sec := listSlice t r.1 (r.2 + 1)
    (if sec.any (fun x => decide (x ≠ 0)) then popStd (nonzerosSpec sec) else 0) +
      (g : ℝ) * (countZeros sec : ℝ))).sum

/-- Alpha-channel foreground test, following the specification's wording for
the RectangleExtractor mask. -/
def alphaForeground (p : Px) : Bool := decide (0 < p.a)

/-- The selection made by the tolerance loop followed by the final length
check equals: the first tolerance whose approximation has exactly 4 vertices
when one exists, and the fallback box otherwise. -/
theorem loopSel (approx : ℚ → List Pt) (box : List Pt) :
    ∀ (s : ℚ) (ss : List ℚ),
      (if (approxLoop approx (s :: ss)).length = 4 then approxLoop approx (s :: ss) else box) =
        match (s :: ss).find? (fun u => decide ((approx u).length = 4)) with
        | some u => approx u
        | none => box := by
  intro s ss
  induction ss generalizing s with
  | nil =>
    by_cases h : (approx s).length = 4
    · rw [List.find?_cons_of_pos _ (by simpa using h)]
      simp [approxLoop, h]
    · rw [List.find?_cons_of_neg _ (by simpa using h)]
      simp [approxLoop, List.find?_nil, h]
  | cons s' ss' ih =>
    by_cases h : (approx s).length = 4
    · rw [List.find?_cons_of_pos _ (by simpa using h)]
      simp [approxLoop, h]
    · have hstep : approxLoop approx (s :: s' :: ss') = approxLoop approx (s' :: ss') := by
        simp [approxLoop, h]
      rw [List.find?_cons_of_neg _ (by simpa using h), hstep, ih s']

/-- Claim C6: corner detection uses the result of the first tolerance in the
list 1, 2, 3, 5, 7, 10 percent whose polygon approximation has exactly 4
vertices; when no tolerance yields 4 vertices the minimum-area-rectangle box
is used, and a partial non-4-vertex attempt is never returned. -/
theorem claim_C6 (approx : ℚ → List Pt) (box : List Pt) :
    detectCorners approx box =
      match scaleList.find? (fun s => decide ((approx s).length = 4)) with
      | some s => approx s
      | none => box := by
  show (if (approxLoop approx scaleList).length = 4 then approxLoop approx scaleList else box) = _
  rw [scaleList]
  exact loopSel approx box _ _

/-- Claim C9, amended: the RetrieveRect speckle filter keeps exactly the
contours whose area is strictly greater than 1000, so a contour of area
exactly 1000 is discarded there; the LineAnalyzer blob filter keeps exactly
the contours whose area is at least min_blob_area, so a contour of area
exactly min_blob_area is retained. -/
theorem claim_C9_amended (area : Cnt → ℚ) (mb : ℚ) (cs : List Cnt) (c : Cnt) :
    (c ∈ rrFilterContours area cs ↔ c ∈ cs ∧ 1000 < area c) ∧
    (c ∈ laFilterContours area mb cs ↔ c ∈ cs ∧ mb ≤ area c) := by
  constructor <;> simp [rrFilterContours, laFilterContours, List.mem_filter]

/-- Claim C9, counterexample: a contour of area exactly 1000 does not survive
the RetrieveRect speckle filter, contradicting the claim that it is retained;
a contour of area exactly 100 does survive the LineAnalyzer blob filter. -/
theorem claim_C9_counter :
    rrFilterContours (fun _ => 1000) [[((0 : ℤ), (0 : ℤ))]] = [] ∧
    laFilterContours (fun _ => 100) 100 [[((0 : ℤ), (0 : ℤ))]] = [[((0 : ℤ), (0 : ℤ))]] := by
  constructor <;> rfl

/-- Claim C9, witness: the amended filter characterizations instantiated at a
concrete contour of area 1001 and a concrete contour of area 100. -/
theorem claim_C9_witness :
    [((0 : ℤ), (0 : ℤ))] ∈ rrFilterContours (fun _ => 1001) [[((0 : ℤ), (0 : ℤ))]] ∧
    [((0 : ℤ), (0 : ℤ))] ∈ laFilterContours (fun _ => 100) 100 [[((0 : ℤ), (0 : ℤ))]] :=
  ⟨(claim_C9_amended (fun _ => 1001) 100 [[((0 : ℤ), (0 : ℤ))]] [((0 : ℤ), (0 : ℤ))]).1.mpr
      ⟨by decide, by norm_num⟩,
    (claim_C9_amended (fun _ => 100) 100 [[((0 : ℤ), (0 : ℤ))]] [((0 : ℤ), (0 : ℤ))]).2.mpr
      ⟨by decide, by norm_num⟩⟩

/-- Claim C2, amended: for a four-channel input the mask built by
RetrieveRect.process_image marks exactly the pixels having any positive
channel, not only those with positive alpha; every pixel with positive alpha
is marked, but a transparent pixel with a positive color channel is marked
too. -/
theorem claim_C2_amended (img : Image) (y x : ℕ) :
    rrMaskAt img y x =
      if img.channels = 4 then some (rrForeground (img.pix y x)) else none := by
  by_cases h : img.channels = 4 <;> simp [rrMaskAt, rrMask, h]

/-- Claim C2, counterexample: a four-channel image whose single pixel has
alpha 0 and blue 1; the mask marks the pixel although its transparency is not
positive, so the mask does not mark exactly the alpha-positive pixels. -/
theorem claim_C2_counter :
    rrMaskAt ⟨1, 1, 4, fun _ _ => ⟨1, 0, 0, 0⟩⟩ 0 0 = some true ∧
    alphaForeground ((⟨1, 1, 4, fun _ _ => ⟨1, 0, 0, 0⟩⟩ : Image).pix 0 0) = false := by
  constructor <;> rfl

/-- A list of rationals whose entries are all equal has population variance 0. -/
theorem popVar_const (c : ℚ) (l : List ℚ) (h : ∀ x ∈ l, x = c) : popVar l = 0 := by
  rcases eq_or_ne l [] with rfl | hne
  · simp [popVar, mean]
  · have hlen : (l.length : ℚ) ≠ 0 := by
      exact_mod_cast fun h0 => hne (List.length_eq_zero.mp (by exact_mod_cast h0))
    have hmean : mean l = c := by
      rw [mean, List.sum_eq_card_nsmul l c h, nsmul_eq_mul]
      field_simp
    have hz : (l.map (fun x => (x - mean l) ^ 2)).sum = 0 := by
      apply List.sum_eq_zero
      intro y hy
      rcases List.mem_map.mp hy with ⟨x, hx, rfl⟩
      rw [hmean, h x hx]
      ring
    rw [popVar, hz, zero_div]

/-- Zero variance gives zero standard deviation. -/
theorem popStd_zero (l : List ℚ) (h : popVar l = 0) : popStd l = 0 := by
  rw [popStd, h]
  simp [Real.sqrt_zero]

/-- Claim C3: S1 equals the specification's formula (standard deviation of the
nonzero entries, zero when fewer than two exist, plus the gap penalty times
the zero count) on nonnegative profiles; a constant positive profile has
S1 = 0; and a profile whose entries are a positive constant except for k
zeros has S1 = k times the gap penalty, exactly. -/
theorem claim_C3 (g v : ℚ) (t tr : List ℚ) (n k : ℕ) :
    ((∀ x ∈ t, 0 ≤ x) → s1 g t = s1spec g t) ∧
    (0 < v → s1 g (List.replicate n v) = 0) ∧
    (0 < v → (∀ x ∈ tr, x = 0 ∨ x = v) → tr.countP (fun x => decide (x = 0)) = k →
      s1 g tr = (k : ℝ) * (g : ℝ)) := by
  refine ⟨?_, ?_, ?_⟩
  · intro h
    have hfe : nonzerosSpec t = nonzeros t := by
      apply List.filter_congr
      intro x hx
      rcases lt_or_eq_of_le (h x hx) with hlt | heq
      · simp [hlt, hlt.ne']
      · simp [← heq]
    rw [s1, s1spec, hfe]
    have hif : (if 1 < (nonzeros t).length then popStd (nonzeros t) else 0) =
        (if (nonzeros t).length < 2 then 0 else popStd (nonzeros t)) := by
      rcases Nat.lt_or_ge (nonzeros t).length 2 with h2 | h2
      · have h1 : ¬ 1 < (nonzeros t).length := by omega
        simp [h1, h2]
      · have h1 : 1 < (nonzeros t).length := by omega
        have h2' : ¬ (nonzeros t).length < 2 := by omega
        simp [h1, h2']
    rw [hif, mul_comm]
  · intro hv
    have hstd : popStd (nonzeros (List.replicate n v)) = 0 := by
      apply popStd_zero
      apply popVar_const v
      intro x hx
      exact List.eq_of_mem_replicate (List.mem_filter.mp hx).1
    have hcnt : countZeros (List.replicate n v) = 0 := by
      rw [countZeros]
      apply List.countP_eq_zero.mpr
      intro x hx
      rw [List.eq_of_mem_replicate hx]
      simp [hv.ne']
    rw [s1, hcnt, hstd]
    split <;> norm_num
  · intro hv hall hk
    have hstd : popStd (nonzeros tr) = 0 := by
      apply popStd_zero
      apply popVar_const v
      intro x hx
      have hm := List.mem_filter.mp hx
      rcases hall x hm.1 with h0 | hvv
      · exfalso
        have hpos : (0 : ℚ) < x := of_decide_eq_true hm.2
        rw [h0] at hpos
        exact lt_irrefl 0 hpos
      · exact hvv
    have hcnt : countZeros tr = k := hk
    rw [s1, hcnt, hstd]
    split <;> ring

/-- Claim C3, witness: the constant-profile and k-gaps consequences of the
theorem instantiated at concrete profiles. -/
theorem claim_C3_witness :
    s1 1000 (List.replicate 3 (5 : ℚ)) = 0 ∧
    s1 1000 [5, 0, 0, 5] = ((2 : ℕ) : ℝ) * ((1000 : ℚ) : ℝ) :=
  ⟨(claim_C3 1000 5 [] (List.replicate 3 5) 3 0).2.1 (by norm_num),
   (claim_C3 1000 5 [] [5, 0, 0, 5] 4 2).2.2 (by norm_num) (by decide) (by decide)⟩

/-- Strict lexicographic order on indexed scored lines: smaller regional
score first, ties broken by smaller original index. -/
def s2LexLt (a b : ℕ × ScoredLine) : Prop :=
  a.2.s2 < b.2.s2 ∨ (a.2.s2 = b.2.s2 ∧ a.1 < b.1)

/-- Membership in an insertion. -/
theorem mem_insertKey {α β : Type} [LinearOrder β] (key : α → β) (a c : α)
    (l : List α) : c ∈ insertKey key a l ↔ c = a ∨ c ∈ l := by
  induction l with
  | nil => simp [insertKey]
  | cons b bs ih =>
    rw [insertKey]
    split
    · simp only [List.mem_cons, ih]
      tauto
    · simp only [List.mem_cons]

/-- Insertion produces a permutation of consing. -/
theorem insertKey_perm {α β : Type} [LinearOrder β] (key : α → β) (a : α)
    (l : List α) : (insertKey key a l).Perm (a :: l) := by
  induction l with
  | nil => exact List.Perm.refl _
  | cons b bs ih =>
    rw [insertKey]
    split
    · exact (ih.cons b).trans (List.Perm.swap a b bs)
    · exact List.Perm.refl _

/-- The stable sort permutes its input. -/
theorem sortKey_perm {α β : Type} [LinearOrder β] (key : α → β) (l : List α) :
    (sortKey key l).Perm l := by
  induction l with
  | nil => exact List.Perm.refl _
  | cons x xs ih =>
    rw [sortKey]
    exact (insertKey_perm key x (sortKey key xs)).trans (ih.cons x)

/-- The stable sort preserves length. -/
theorem sortKey_length {α β : Type} [LinearOrder β] (key : α → β) (l : List α) :
    (sortKey key l).length = l.length :=
  (sortKey_perm key l).length_eq

/-- Inserting an element whose original index is smaller than every index in
an ordered list keeps the list ordered by score with index tiebreak. -/
theorem insertKey_pairwise (a : ℕ × ScoredLine) (l : List (ℕ × ScoredLine))
    (hl : l.Pairwise s2LexLt) (ha : ∀ b ∈ l, a.1 < b.1) :
    (insertKey s2Key a l).Pairwise s2LexLt := by
  induction l with
  | nil => simp [insertKey, s2LexLt]
  | cons b bs ih =>
    rcases List.pairwise_cons.mp hl with ⟨hb, hbs⟩
    rw [insertKey]
    by_cases hc : s2Key b < s2Key a
    · rw [if_pos hc]
      apply List.pairwise_cons.mpr
      refine ⟨?_, ih hbs (fun c hc' => ha c (List.mem_cons_of_mem b hc'))⟩
      intro c hcmem
      rcases (mem_insertKey s2Key a c bs).mp hcmem with rfl | hcbs
      · exact Or.inl hc
      · exact hb c hcbs
    · rw [if_neg hc]
      have hab : s2Key a ≤ s2Key b := le_of_not_lt hc
      apply List.pairwise_cons.mpr
      refine ⟨?_, hl⟩
      intro c hcmem
      rcases List.mem_cons.mp hcmem with rfl | hcbs
      · rcases lt_or_eq_of_le hab with hlt | heq
        · exact Or.inl hlt
        · exact Or.inr ⟨heq, ha c (List.mem_cons_self c bs)⟩
      · have hbc : s2Key b ≤ s2Key c := by
          rcases hb c hcbs with hlt | ⟨heq, _⟩
          · exact le_of_lt hlt
          · exact le_of_eq heq
        rcases lt_or_eq_of_le (le_trans hab hbc) with hlt | heq
        · exact Or.inl hlt
        · exact Or.inr ⟨heq, ha c (List.mem_cons_of_mem b hcbs)⟩

/-- Sorting a list with strictly increasing indices by the regional score
yields a list strictly ordered by score with index tiebreak. -/
theorem sortKey_pairwise (l : List (ℕ × ScoredLine))
    (h : l.Pairwise (fun a b => a.1 < b.1)) :
    (sortKey s2Key l).Pairwise s2LexLt := by
  induction l with
  | nil => simp [sortKey]
  | cons x xs ih =>
    rcases List.pairwise_cons.mp h with ⟨hx, hxs⟩
    rw [sortKey]
    apply insertKey_pairwise _ _ (ih hxs)
    intro b hb
    exact hx b ((sortKey_perm s2Key xs).mem_iff.mp hb)

/-- Enumeration from any start index has strictly increasing indices. -/
theorem enumFrom_fst_pairwise {α : Type} (l : List α) :
    ∀ n, (List.enumFrom n l).Pairwise (fun a b => a.1 < b.1) := by
  induction l with
  | nil => intro n; simp
  | cons x xs ih =>
    intro n
    rw [List.enumFrom_cons]
    apply List.pairwise_cons.mpr
    refine ⟨?_, ih (n + 1)⟩
    intro p hp
    obtain ⟨i, y⟩ := p
    have := (List.mem_enumFrom hp).1
    omega

/-- Enumeration has strictly increasing indices. -/
theorem enum_fst_pairwise {α : Type} (l : List α) :
    l.enum.Pairwise (fun a b => a.1 < b.1) :=
  enumFrom_fst_pairwise l 0

/-- Claim C1: the ranked result is obtained from the unique stable ascending
sort of the enumerated lines by regional score (ties broken by original line
index), truncated to the requested count, each record being the one-based
line number with the global and regional scores; the default count is 5. -/
theorem claim_C1 (lines : List ScoredLine) (top : ℕ) :
    ∃ l : List (ℕ × ScoredLine),
      l.Perm lines.enum ∧ l.Pairwise s2LexLt ∧
      getSmoothestLines lines top =
        (l.take top).map (fun p => (p.1 + 1, p.2.s1, p.2.s2)) ∧
      getSmoothestLinesDefault lines = getSmoothestLines lines 5 :=
  ⟨sortKey s2Key lines.enum, sortKey_perm s2Key lines.enum,
    sortKey_pairwise lines.enum (enum_fst_pairwise lines), rfl, rfl⟩

/-- The ranked result of an empty line list is empty. -/
theorem getSmoothestLines_nil (top : ℕ) : getSmoothestLines [] top = [] := by
  rw [getSmoothestLines]
  simp [sortKey]

/-- The empty contour list propagates to an empty scored line list. -/
theorem analyzerLines_of_no_contours (cv : CV) (img : Image) (mb g : ℚ)
    (hemp : laContours cv img mb = []) : analyzerLines cv img mb g = [] := by
  rw [analyzerLines, analyzerThickness, hemp]
  simp [groupContours, scoreLines]

/-- Claim C10: the ranked result always has exactly min of the requested count
and the number of detected lines; and when no contours survive filtering the
pipeline still completes, producing an empty line list whose ranked result is
empty. -/
theorem claim_C10 (lines : List ScoredLine) (top : ℕ) (cv : CV) (img : Image)
    (mb g : ℚ) :
    (getSmoothestLines lines top).length = min top lines.length ∧
    (img.channels = 4 → laContours cv img mb = [] →
      ∃ L, runAnalyzer cv img mb g = some L ∧ getSmoothestLines L top = []) := by
  constructor
  · rw [getSmoothestLines, List.length_map, List.length_take, sortKey_length,
      List.enum_length]
  · intro h4 hemp
    refine ⟨analyzerLines cv img mb g, by rw [runAnalyzer, if_pos h4], ?_⟩
    rw [analyzerLines_of_no_contours cv img mb g hemp]
    exact getSmoothestLines_nil top

/-- The trivial library model used by concrete pipeline runs: every geometric
primitive returns a constant, and no contour is ever found. -/
def cv0 : CV :=
  ⟨fun _ => 0, fun _ => 0, fun _ => 0, fun _ _ _ => false, id, fun _ _ _ => []⟩

/-- A four-channel image with no pixels. -/
def img0 : Image := ⟨0, 0, 4, fun _ _ => ⟨0, 0, 0, 0⟩⟩

/-- Claim C10, witness: on a concrete image where no contour survives, the
pipeline completes and the ranked result is empty. -/
theorem claim_C10_witness :
    ∃ L, runAnalyzer cv0 img0 100 1000 = some L ∧ getSmoothestLines L 3 = [] :=
  (claim_C10 [] 3 cv0 img0 100 1000).2 rfl rfl

/-- Claim C7, amended: when no contours survive filtering the grouping stage
returns an empty line list instead of raising; no EmptyInputError exists in
the code, and the pipeline completes with an empty ranked result. -/
theorem claim_C7_amended (cv : CV) (img : Image) (mb g : ℚ) (top : ℕ) :
    img.channels = 4 → laContours cv img mb = [] →
      groupContours cv (img.h - 100) (laContours cv img mb) = [] ∧
      runAnalyzer cv img mb g = some [] ∧
      getSmoothestLines [] top = [] := by
  intro h4 hemp
  refine ⟨by rw [hemp]; simp [groupContours], ?_, getSmoothestLines_nil top⟩
  rw [runAnalyzer, if_pos h4, analyzerLines_of_no_contours cv img mb g hemp]

/-- Claim C7, counterexample: on a concrete image where no contour survives
filtering, the analyzer completes and returns the empty ranked result, so the
empty case is coerced into an empty result rather than raising a distinct
EmptyInputError, which does not exist anywhere in the code. -/
theorem claim_C7_counter :
    runAnalyzer cv0 img0 100 1000 = some [] ∧ getSmoothestLines [] 5 = [] :=
  ⟨rfl, rfl⟩

/-- Claim C7, witness: the amended statement instantiated on the concrete
empty-contour run. -/
theorem claim_C7_witness :
    groupContours cv0 (img0.h - 100) (laContours cv0 img0 100) = [] ∧
    runAnalyzer cv0 img0 100 1000 = some [] ∧
    getSmoothestLines [] 5 = [] :=
  claim_C7_amended cv0 img0 100 1000 5 rfl rfl

/-- Claim C8, amended: every thickness profile produced by the pipeline has
length equal to the rectified image width minus 100, the width of the
50-pixel-per-side cropped image, not the rectified width itself. -/
theorem claim_C8_amended (cv : CV) (img : Image) (mb g : ℚ) :
    ((((runAnalyzer cv img mb g).getD []).map (fun sl => sl.thickness.length)).all
      (fun len => decide (len = img.w - 100)) = true) ∧
    (((analyzerThickness cv img mb).map (fun p => p.2.length)).all
      (fun len => decide (len = img.w - 100)) = true) := by
  have hthick : ∀ p ∈ analyzerThickness cv img mb, p.2.length = img.w - 100 := by
    intro p hp
    rcases List.mem_map.mp hp with ⟨grp, hg, rfl⟩
    simp [thicknessOf]
  constructor
  · rw [List.all_eq_true]
    intro len hlen
    rcases List.mem_map.mp hlen with ⟨sl, hsl, rfl⟩
    by_cases h4 : img.channels = 4
    · rw [runAnalyzer, if_pos h4] at hsl
      simp only [Option.getD_some, analyzerLines, scoreLines] at hsl
      rcases List.mem_map.mp hsl with ⟨p, hp, rfl⟩
      exact decide_eq_true (hthick p hp)
    · rw [runAnalyzer, if_neg h4] at hsl
      simp at hsl
  · rw [List.all_eq_true]
    intro len hlen
    rcases List.mem_map.mp hlen with ⟨p, hp, rfl⟩
    exact decide_eq_true (hthick p hp)

/-- A library model finding one fixed contour of area 100, with unit area
moment, and rasterizing nothing. -/
def cv1 : CV :=
  ⟨fun _ => 100, fun _ => 1, fun _ => 0, fun _ _ _ => false, id,
    fun _ _ _ => [[((0 : ℤ), (0 : ℤ))]]⟩

/-- A four-channel 102 by 102 image whose pixels are fully opaque. -/
def img1 : Image := ⟨102, 102, 4, fun _ _ => ⟨0, 0, 0, 1⟩⟩

/-- Claim C8, counterexample: a rectified image of width 102 produces a line
whose thickness profile has length 2, the cropped width, not 102. -/
theorem claim_C8_counter :
    (analyzerThickness cv1 img1 100).map (fun p => p.2.length) = [2] ∧
    img1.w = 102 := by
  constructor <;> rfl

/-- The scan invariant: starting from an arbitrary running maximum, the scan
over strictly increasing columns either keeps its accumulator because no
column beats the maximum, or returns the first column realizing the overall
maximum, which strictly beats the starting maximum, every other column, and
in particular every earlier column. -/
theorem scanPeak_inv (f : ℕ → ℚ) :
    ∀ (xs : List ℕ), xs.Pairwise (· < ·) → ∀ (m : ℚ) (pk : Option ℕ),
      (scanPeak f xs m pk = pk ∧ ∀ x ∈ xs, f x ≤ m) ∨
      (∃ p ∈ xs, scanPeak f xs m pk = some p ∧ m < f p ∧
        (∀ x ∈ xs, f x ≤ f p) ∧ ∀ x ∈ xs, x < p → f x < f p) := by
  intro xs
  induction xs with
  | nil => intro _ m pk; exact Or.inl ⟨rfl, by simp⟩
  | cons x xs ih =>
    intro hpw m pk
    rcases List.pairwise_cons.mp hpw with ⟨hx, htail⟩
    by_cases hc : m < f x
    · have hred : scanPeak f (x :: xs) m pk = scanPeak f xs (f x) (some x) := by
        rw [scanPeak, if_pos hc]
      rcases ih htail (f x) (some x) with ⟨heq, hall⟩ | ⟨p, hpmem, heq, hplt, hpmax, hpfirst⟩
      · refine Or.inr ⟨x, List.mem_cons_self x xs, by rw [hred, heq], hc, ?_, ?_⟩
        · intro y hy
          rcases List.mem_cons.mp hy with rfl | hyx
          · exact le_refl _
          · exact hall y hyx
        · intro y hy hylt
          rcases List.mem_cons.mp hy with rfl | hyx
          · exact absurd hylt (lt_irrefl y)
          · exact absurd hylt (not_lt.mpr (le_of_lt (hx y hyx)))
      · refine Or.inr ⟨p, List.mem_cons_of_mem x hpmem, by rw [hred, heq],
          lt_trans hc hplt, ?_, ?_⟩
        · intro y hy
          rcases List.mem_cons.mp hy with rfl | hyx
          · exact le_of_lt hplt
          · exact hpmax y hyx
        · intro y hy hylt
          rcases List.mem_cons.mp hy with rfl | hyx
          · exact hplt
          · exact hpfirst y hyx hylt
    · have hred : scanPeak f (x :: xs) m pk = scanPeak f xs m pk := by
        rw [scanPeak, if_neg hc]
      have hxm : f x ≤ m := le_of_not_lt hc
      rcases ih htail m pk with ⟨heq, hall⟩ | ⟨p, hpmem, heq, hplt, hpmax, hpfirst⟩
      · refine Or.inl ⟨by rw [hred, heq], ?_⟩
        intro y hy
        rcases List.mem_cons.mp hy with rfl | hyx
        · exact hxm
        · exact hall y hyx
      · refine Or.inr ⟨p, List.mem_cons_of_mem x hpmem, by rw [hred, heq], hplt, ?_, ?_⟩
        · intro y hy
          rcases List.mem_cons.mp hy with rfl | hyx
          · exact le_of_lt (lt_of_le_of_lt hxm hplt)
          · exact hpmax y hyx
        · intro y hy hylt
          rcases List.mem_cons.mp hy with rfl | hyx
          · exact lt_of_le_of_lt hxm hplt
          · exact hpfirst y hyx hylt

/-- The columns scanned for one half are exactly those between its bounds. -/
theorem mem_halfRange (lo hi x : ℕ) :
    x ∈ List.range' lo (hi - lo) ↔ lo ≤ x ∧ x < hi := by
  rw [List.mem_range'_1]
  omega

/-- Characterization of the region emitted for one half: a region appears
exactly when there is at least one line and some column of the half has
strictly positive variance; the region is then centered on the first column
realizing the maximal variance, expanded by the radius and clipped. -/
theorem halfRegion_iff (lines : List (List ℚ)) (lo hi rs : ℕ) (r : ℕ × ℕ) :
    halfRegion lines lo hi rs = some r ↔
      lines ≠ [] ∧ ∃ p, lo ≤ p ∧ p < hi ∧ 0 < columnVar lines p ∧
        (∀ x, lo ≤ x → x < hi → columnVar lines x ≤ columnVar lines p) ∧
        (∀ x, lo ≤ x → x < p → columnVar lines x < columnVar lines p) ∧
        r = (max lo (p - rs), min hi (p + rs)) := by
  constructor
  · intro h
    rw [halfRegion] at h
    by_cases hl : lines = []
    · rw [if_pos hl] at h
      exact absurd h (by simp)
    · rw [if_neg hl] at h
      refine ⟨hl, ?_⟩
      rcases scanPeak_inv (columnVar lines) (List.range' lo (hi - lo))
          (List.pairwise_lt_range' lo (hi - lo)) 0 none with
        ⟨heq, _⟩ | ⟨p, hpmem, heq, hpos, hmax, hfirst⟩
      · rw [heq] at h
        exact absurd h (by simp)
      · rw [heq] at h
        have hr : (max lo (p - rs), min hi (p + rs)) = r := by simpa using h
        have hpb := (mem_halfRange lo hi p).mp hpmem
        refine ⟨p, hpb.1, hpb.2, hpos, ?_, ?_, hr.symm⟩
        · intro y h1 h2
          exact hmax y ((mem_halfRange lo hi y).mpr ⟨h1, h2⟩)
        · intro y h1 h2
          exact hfirst y ((mem_halfRange lo hi y).mpr ⟨h1, lt_trans h2 hpb.2⟩) h2
  · rintro ⟨hl, p, hlo, hhi, hpos, hmax, hfirst, rfl⟩
    rw [halfRegion, if_neg hl]
    rcases scanPeak_inv (columnVar lines) (List.range' lo (hi - lo))
        (List.pairwise_lt_range' lo (hi - lo)) 0 none with
      ⟨heq, hall⟩ | ⟨q, hqmem, heq, hqpos, hqmax, hqfirst⟩
    · exact absurd (hall p ((mem_halfRange lo hi p).mpr ⟨hlo, hhi⟩)) (not_le.mpr hpos)
    · have hqb := (mem_halfRange lo hi q).mp hqmem
      have hqp : q = p := by
        rcases lt_trichotomy q p with hlt | heqq | hgt
        · exact absurd (hqmax p ((mem_halfRange lo hi p).mpr ⟨hlo, hhi⟩))
            (not_le.mpr (hfirst q hqb.1 hlt))
        · exact heqq
        · exact absurd (hmax q hqb.1 hqb.2)
            (not_le.mpr (hqfirst p ((mem_halfRange lo hi p).mpr ⟨hlo, hhi⟩) hgt))
      rw [heq, hqp]

/-- Column variance evaluation on the two-line example at column 0. -/
theorem columnVar_ex0 : columnVar [[(0 : ℚ), 5], [2, 5]] 0 = 1 := by
  norm_num [columnVar, columnVals, popVar, mean, List.getD]

/-- Column variance evaluation on the two-line example at column 1. -/
theorem columnVar_ex1 : columnVar [[(0 : ℚ), 5], [2, 5]] 1 = 0 := by
  norm_num [columnVar, columnVals, popVar, mean, List.getD]

/-- The left half of the two-line example yields the region around column 0. -/
theorem halfRegion_eval : halfRegion [[(0 : ℚ), 5], [2, 5]] 0 1 0 = some (0, 0) := by
  rw [halfRegion, if_neg (by simp)]
  rw [show List.range' 0 (1 - 0) = [0] from rfl]
  rw [scanPeak, if_pos (by rw [columnVar_ex0]; norm_num), scanPeak]
  rfl

/-- The right half of the two-line example yields no region, its variances
being all zero. -/
theorem halfRegion_eval_right : halfRegion [[(0 : ℚ), 5], [2, 5]] 1 2 0 = none := by
  rw [halfRegion, if_neg (by simp)]
  rw [show List.range' 1 (2 - 1) = [1] from rfl]
  rw [scanPeak, if_neg (by rw [columnVar_ex1]; norm_num), scanPeak]

/-- The problematic regions of the width-2 two-line example. -/
theorem regionsW2_eval :
    problematicRegions 2 [[(0 : ℚ), 5], [2, 5]] = [(0, 0)] := by
  rw [problematicRegions, show (2 : ℕ) / 2 = 1 from rfl,
    show (2 : ℕ) / 10 = 0 from rfl, halfRegion_eval, halfRegion_eval_right]
  rfl

/-- Claim C5, amended: at most two regions are emitted, one optional region
per half; a half emits a region exactly when there is at least one line and
some column of the half has strictly positive thickness variance, a half
whose maximal standard deviation is zero emitting nothing; the emitted region
is centered on the first column realizing the maximal variance, expanded by
the radius and clipped to the half bounds. -/
theorem claim_C5_amended (lines : List (List ℚ)) (w lo hi rs : ℕ) (r : ℕ × ℕ) :
    (problematicRegions w lines).length ≤ 2 ∧
    problematicRegions w lines =
      (halfRegion lines 0 (w / 2) (w / 10)).toList ++
        (halfRegion lines (w / 2) w (w / 10)).toList ∧
    (halfRegion lines lo hi rs = some r ↔
      lines ≠ [] ∧ ∃ p, lo ≤ p ∧ p < hi ∧ 0 < columnVar lines p ∧
        (∀ x, lo ≤ x → x < hi → columnVar lines x ≤ columnVar lines p) ∧
        (∀ x, lo ≤ x → x < p → columnVar lines x < columnVar lines p) ∧
        r = (max lo (p - rs), min hi (p + rs))) := by
  refine ⟨?_, ?_, halfRegion_iff lines lo hi rs r⟩
  · cases h1 : halfRegion lines 0 (w / 2) (w / 10) <;>
      cases h2 : halfRegion lines (w / 2) w (w / 10) <;>
      simp [problematicRegions, h1, h2]
  · cases h1 : halfRegion lines 0 (w / 2) (w / 10) <;>
      cases h2 : halfRegion lines (w / 2) w (w / 10) <;>
      simp [problematicRegions, h1, h2]

/-- Claim C5, counterexample: one line of constant thickness over a width-2
image; both halves have a line and a column, yet no region is emitted because
every column variance is zero, contradicting the claim that each such half
emits exactly one region. -/
theorem claim_C5_counter :
    problematicRegions 2 [[(1 : ℚ), 1]] = [] ∧
    ([[(1 : ℚ), 1]] : List (List ℚ)) ≠ [] := by
  constructor
  · rw [problematicRegions, show (2 : ℕ) / 2 = 1 from rfl,
      show (2 : ℕ) / 10 = 0 from rfl]
    have h1 : halfRegion [[(1 : ℚ), 1]] 0 1 0 = none := by
      rw [halfRegion, if_neg (by simp)]
      rw [show List.range' 0 (1 - 0) = [0] from rfl]
      rw [scanPeak,
        if_neg (by norm_num [columnVar, columnVals, popVar, mean, List.getD]),
        scanPeak]
    have h2 : halfRegion [[(1 : ℚ), 1]] 1 2 0 = none := by
      rw [halfRegion, if_neg (by simp)]
      rw [show List.range' 1 (2 - 1) = [1] from rfl]
      rw [scanPeak,
        if_neg (by norm_num [columnVar, columnVals, popVar, mean, List.getD]),
        scanPeak]
    rw [h1, h2]
    rfl
  · simp

/-- Claim C5, witness: the emission characterization applied to the concrete
two-line example whose left half has positive variance at column 0. -/
theorem claim_C5_witness :
    ([[(0 : ℚ), 5], [2, 5]] : List (List ℚ)) ≠ [] ∧
    ∃ p, 0 ≤ p ∧ p < 1 ∧ 0 < columnVar [[(0 : ℚ), 5], [2, 5]] p ∧
      (∀ x, 0 ≤ x → x < 1 →
        columnVar [[(0 : ℚ), 5], [2, 5]] x ≤ columnVar [[(0 : ℚ), 5], [2, 5]] p) ∧
      (∀ x, 0 ≤ x → x < p →
        columnVar [[(0 : ℚ), 5], [2, 5]] x < columnVar [[(0 : ℚ), 5], [2, 5]] p) ∧
      ((0, 0) : ℕ × ℕ) = (max 0 (p - 0), min 1 (p + 0)) :=
  (claim_C5_amended [[(0 : ℚ), 5], [2, 5]] 2 0 1 0 (0, 0)).2.2.mp halfRegion_eval

/-- On nonnegative profiles the specification's nonzero filter coincides with
the source's positive filter. -/
theorem nonzerosSpec_eq (t : List ℚ) (h : ∀ x ∈ t, 0 ≤ x) :
    nonzerosSpec t = nonzeros t := by
  apply List.filter_congr
  intro x hx
  rcases lt_or_eq_of_le (h x hx) with hlt | heq
  · simp [hlt, hlt.ne']
  · simp [← heq]

/-- On nonnegative profiles the any-positive test coincides with the
any-nonzero test. -/
theorem any_pos_eq_any_ne (t : List ℚ) (h : ∀ x ∈ t, 0 ≤ x) :
    t.any (fun x => decide (0 < x)) = t.any (fun x => decide (x ≠ 0)) := by
  induction t with
  | nil => rfl
  | cons a l ih =>
    have ha := h a (List.mem_cons_self a l)
    rw [List.any_cons, List.any_cons,
      ih (fun x hx => h x (List.mem_cons_of_mem a hx))]
    rcases lt_or_eq_of_le ha with hlt | heq
    · simp [hlt, hlt.ne']
    · simp [← heq]

/-- Entries of a slice are entries of the list. -/
theorem mem_listSlice {x : ℚ} {t : List ℚ} {a b : ℕ} (h : x ∈ listSlice t a b) :
    x ∈ t :=
  List.mem_of_mem_drop (List.mem_of_mem_take h)

/-- On nonnegative profiles S2 equals the specification's per-region formula
read over closed column ranges. -/
theorem s2_eq_closed (g : ℚ) (t : List ℚ) (h : ∀ x ∈ t, 0 ≤ x)
    (regions : List (ℕ × ℕ)) : s2 g regions t = s2specClosed g regions t := by
  rw [s2, s2specClosed]
  congr 1
  apply List.map_congr_left
  intro r _
  have hsec : ∀ x ∈ listSlice t r.1 (r.2 + 1), 0 ≤ x :=
    fun x hx => h x (mem_listSlice hx)
  show (if (listSlice t r.1 (r.2 + 1)).any (fun x => decide (0 < x)) then
      popStd (nonzeros (listSlice t r.1 (r.2 + 1))) else 0) +
      (countZeros (listSlice t r.1 (r.2 + 1)) : ℝ) * (g : ℝ) =
    (if (listSlice t r.1 (r.2 + 1)).any (fun x => decide (x ≠ 0)) then
      popStd (nonzerosSpec (listSlice t r.1 (r.2 + 1))) else 0) +
      (g : ℝ) * (countZeros (listSlice t r.1 (r.2 + 1)) : ℝ)
  rw [nonzerosSpec_eq _ hsec, any_pos_eq_any_ne _ hsec, mul_comm ((g : ℝ)) _]

/-- An emitted region read as a pair is ordered and lies between the bounds of
its half. -/
theorem halfRegion_bounds (lines : List (List ℚ)) (lo hi rs : ℕ) (r : ℕ × ℕ)
    (h : halfRegion lines lo hi rs = some r) :
    lo ≤ r.1 ∧ r.1 ≤ r.2 ∧ r.2 ≤ hi := by
  rcases (halfRegion_iff lines lo hi rs r).mp h with ⟨_, p, hlo, hhi, _, _, _, rfl⟩
  refine ⟨le_max_left _ _, ?_, min_le_left _ _⟩
  simp only []
  omega

/-- Claim C4, amended: on nonnegative profiles S2 equals the sum over regions
of the specification's per-region formula with each region read as the closed
column range from start through end inclusive, one column more than the
half-open reading; and each emitted region pair is ordered with its half-open
span inside its half, so the extra scored column can be the first column of
the other half. -/
theorem claim_C4_amended (g : ℚ) (t : List ℚ) (w : ℕ) (lines : List (List ℚ))
    (a b : ℕ) :
    ((∀ x ∈ t, 0 ≤ x) → ∀ regions, s2 g regions t = s2specClosed g regions t) ∧
    ((a, b) ∈ problematicRegions w lines →
      a ≤ b ∧ b ≤ w ∧ (b ≤ w / 2 ∨ w / 2 ≤ a)) := by
  constructor
  · intro h regions
    exact s2_eq_closed g t h regions
  · intro hm
    rw [problematicRegions] at hm
    have hm' := List.mem_of_mem_take hm
    rcases List.mem_append.mp hm' with hA | hB
    · have hb := halfRegion_bounds lines 0 (w / 2) (w / 10) (a, b)
        (Option.mem_def.mp (Option.mem_toList.mp hA))
      exact ⟨hb.2.1, le_trans hb.2.2 (Nat.div_le_self w 2), Or.inl hb.2.2⟩
    · have hb := halfRegion_bounds lines (w / 2) w (w / 10) (a, b)
        (Option.mem_def.mp (Option.mem_toList.mp hB))
      exact ⟨hb.2.1, hb.2.2, Or.inr hb.1⟩

/-- Claim C4, counterexample: the width-2 two-line example produces the single
region (0, 0); on the line with thickness profile 0, 5 the code computes
S2 = 1000 because it scores the closed range containing column 0, while the
claim's half-open reading of the same region scores the empty range and gives
S2 = 0. -/
theorem claim_C4_counter :
    problematicRegions 2 [[(0 : ℚ), 5], [2, 5]] = [(0, 0)] ∧
    s2 1000 [(0, 0)] [(0 : ℚ), 5] = 1000 ∧
    s2specOpen 1000 [(0, 0)] [(0 : ℚ), 5] = 0 := by
  refine ⟨regionsW2_eval, ?_, ?_⟩
  · rw [s2]
    show (if (listSlice [(0 : ℚ), 5] 0 (0 + 1)).any (fun x => decide (0 < x)) then
        popStd (nonzeros (listSlice [(0 : ℚ), 5] 0 (0 + 1))) else 0) +
        (countZeros (listSlice [(0 : ℚ), 5] 0 (0 + 1)) : ℝ) * ((1000 : ℚ) : ℝ) + 0 = 1000
    rw [show listSlice [(0 : ℚ), 5] 0 (0 + 1) = [0] from rfl]
    rw [if_neg (by decide), show countZeros [(0 : ℚ)] = 1 from rfl]
    push_cast
    ring
  · rw [s2specOpen]
    show (if (listSlice [(0 : ℚ), 5] 0 0).any (fun x => decide (x ≠ 0)) then
        popStd (nonzerosSpec (listSlice [(0 : ℚ), 5] 0 0)) else 0) +
        ((1000 : ℚ) : ℝ) * (countZeros (listSlice [(0 : ℚ), 5] 0 0) : ℝ) + 0 = 0
    rw [show listSlice [(0 : ℚ), 5] 0 0 = [] from rfl]
    rw [if_neg (by decide), show countZeros ([] : List ℚ) = 0 from rfl]
    push_cast
    ring

/-- Claim C4, witness: the closed-range formula applied to a concrete profile
and the bounds statement applied to the concrete emitted region. -/
theorem claim_C4_witness :
    s2 1000 [(0, 2)] [(1 : ℚ), 1, 0] = s2specClosed 1000 [(0, 2)] [(1 : ℚ), 1, 0] ∧
    ((0 : ℕ) ≤ 0 ∧ (0 : ℕ) ≤ 2 ∧ ((0 : ℕ) ≤ 2 / 2 ∨ (2 : ℕ) / 2 ≤ 0)) :=
  ⟨(claim_C4_amended 1000 [(1 : ℚ), 1, 0] 2 [[(0 : ℚ), 5], [2, 5]] 0 0).1
      (by intro x hx; fin_cases hx <;> norm_num) [(0, 2)],
    (claim_C4_amended 1000 [(1 : ℚ), 1, 0] 2 [[(0 : ℚ), 5], [2, 5]] 0 0).2
      (by rw [regionsW2_eval]; exact List.mem_singleton.mpr rfl)⟩

end PACam
